import Mathlib

set_option maxHeartbeats 1000000
set_option maxRecDepth 4000

/-!
Verification of the two text-processing routines of the MOBgenerator repository:
the legacy color-code parser `parse_color_codes` (generate_items.py) and the
equipment-slot extractor `parse_equipment` (generate_mobs.py).  Python strings
are modelled as `List Char` (wrapped in `String` at the outer interfaces), and
the two functions are translated statement by statement below.
-/

/-- The 16-entry color table of `parse_color_codes` (generate_items.py):
maps a lowercased code character to its color name, `none` when the
character is not a color code. -/
def colorOf : Char → Option String
  | '0' => some "black"
  | '1' => some "dark_blue"
  | '2' => some "dark_green"
  | '3' => some "dark_aqua"
  | '4' => some "dark_red"
  | '5' => some "dark_purple"
  | '6' => some "gold"
  | '7' => some "gray"
  | '8' => some "dark_gray"
  | '9' => some "blue"
  | 'a' => some "green"
  | 'b' => some "aqua"
  | 'c' => some "red"
  | 'd' => some "light_purple"
  | 'e' => some "yellow"
  | 'f' => some "white"
  | _ => none

/-- Membership in the `formats` table of `parse_color_codes`
(keys `k`, `l`, `m`, `n`, `o`, `r`). -/
def isFmtChar (c : Char) : Bool :=
  c == 'k' || c == 'l' || c == 'm' || c == 'n' || c == 'o' || c == 'r'

/-- A character `d` is a recognized escape-code character when, after
lowercasing, it is in the color table or the format table.  This is the
condition `code in colors or code in formats` of the Python loop. -/
def isCodeChar (d : Char) : Bool :=
  (colorOf d.toLower).isSome || isFmtChar d.toLower

/-- The `current_style` dictionary of `parse_color_codes`. -/
structure Style where
  color : String
  bold : Bool
  italic : Bool
  underlined : Bool
  strikethrough : Bool
  obfuscated : Bool
deriving DecidableEq

/-- One output component of `parse_color_codes`.  A flushed component carries
all six style keys (the four `Option Bool` fields are `some _`); the default
component emitted for an empty result carries only `text`, `color` and
`italic`, so its other four keys are `none` (absent from the dictionary). -/
structure Segment where
  text : String
  color : String
  bold : Option Bool
  italic : Bool
  underlined : Option Bool
  strikethrough : Option Bool
  obfuscated : Option Bool
deriving DecidableEq

/-- Initial style: `{color: default_color, bold: False, italic: default_italic,
underlined: False, strikethrough: False, obfuscated: False}`. -/
def initStyle (dc : String) (di : Bool) : Style :=
  ⟨dc, false, di, false, false, false⟩

/-- Component built when the buffer is flushed: `{'text': buffer}` updated
with every key of `current_style`. -/
def mkSeg (buf : List Char) (st : Style) : Segment :=
  ⟨String.mk buf, st.color, some st.bold, st.italic, some st.underlined,
    some st.strikethrough, some st.obfuscated⟩

/-- The fallback component `{"text": "", "color": default_color,
"italic": default_italic}` appended when no components were produced. -/
def defaultSeg (dc : String) (di : Bool) : Segment :=
  ⟨"", dc, none, di, none, none, none⟩

/-- Flush of the accumulation buffer: emits one component when the buffer is
non-empty (`if buffer:` in the Python source), nothing otherwise. -/
def flushPre (buf : List Char) (st : Style) : List Segment :=
  if buf = [] then [] else [mkSeg buf st]

/-- Setting the single boolean flag named by a recognized format character
other than `r`: `current_style[formats[code]] = True`. -/
def setFmt (st : Style) (code : Char) : Style :=
  match code with
  | 'k' => { st with obfuscated := true }
  | 'l' => { st with bold := true }
  | 'm' => { st with strikethrough := true }
  | 'n' => { st with underlined := true }
  | _ => { st with italic := true }

/-- The scan loop of `parse_color_codes`.  The loop examines `text[i]`; on
`&` with a following character it lowercases that character and consumes both
when it is a recognized code (flushing the buffer and updating the style),
otherwise the `&` alone is appended to the buffer and the position advances
by one.  At the end of the input the non-empty buffer is flushed; a last
character is always appended to the buffer (a final `&` has no follower), so
the one-character case appends it and flushes. -/
def scan (dc : String) (di : Bool) : List Char → Style → List Char → List Segment
  | [], st, buf => flushPre buf st
  | [c], st, buf => flushPre (buf ++ [c]) st
  | c :: d :: rest2, st, buf =>
    if c = '&' then
      match colorOf d.toLower with
      | some col => flushPre buf st ++ scan dc di rest2 ⟨col, false, false, false, false, false⟩ []
      | none =>
        if isFmtChar d.toLower then
          if d.toLower = 'r' then
            flushPre buf st ++ scan dc di rest2 (initStyle dc di) []
          else
            flushPre buf st ++ scan dc di rest2 (setFmt st d.toLower) []
        else scan dc di (d :: rest2) st (buf ++ ['&'])
    else scan dc di (d :: rest2) st (buf ++ [c])

/-- `parse_color_codes(text, default_color, default_italic)` from
generate_items.py: empty input returns the single default component; otherwise
the scan runs with the initial style and an empty buffer, and a default
component is returned when the scan produced no components. -/
def parse_color_codes (text : String) (default_color : String) (default_italic : Bool) :
    List Segment :=
  if text.data = [] then [defaultSeg default_color default_italic]
  else
    let comps := scan default_color default_italic text.data
      (initStyle default_color default_italic) []
    if comps = [] then [defaultSeg default_color default_italic] else comps

/-- Concatenation of the `text` fields of a component list, as character
data.  This is the "reconstructed plain text" of the specification. -/
def concatData (segs : List Segment) : List Char :=
  segs.foldr (fun s acc => s.text.data ++ acc) []

/-- Whether a list starts with a recognized escape-code character. -/
def headIsCode : List Char → Bool
  | [] => false
  | d :: _ => isCodeChar d

/-- Whether the text contains a live escape code: a `&` immediately followed
by a recognized code character.  Exactly these `&` occurrences are consumed
by the scan loop; every other character is passed through literally. -/
def hasLiveAmp : List Char → Bool
  | [] => false
  | c :: rest => (c == '&' && headIsCode rest) || hasLiveAmp rest

/-- Number of iterations of the `while i < len(text)` loop of
`parse_color_codes`: one per examined position, the position advancing by two
on a consumed escape code and by one otherwise. -/
def scanSteps : List Char → Nat
  | [] => 0
  | [_] => 1
  | c :: d :: rest2 =>
    if c = '&' then
      if isCodeChar d then 1 + scanSteps rest2 else 1 + scanSteps (d :: rest2)
    else 1 + scanSteps (d :: rest2)

/-- Collapse of doubled quote characters, `equipment_raw.replace('""', '"')`
in generate_mobs.py: left-to-right, non-overlapping. -/
def collapseQuotes : List Char → List Char
  | '"' :: '"' :: rest => '"' :: collapseQuotes rest
  | c :: rest => c :: collapseQuotes rest
  | [] => []

/-- ASCII whitespace stripped by Python `str.strip()`. -/
def isPySpace (c : Char) : Bool :=
  c == ' ' || c == '\t' || c == '\n' || c == '\r' || c == '\x0b' || c == '\x0c'

/-- Python `str.strip()`: removes leading and trailing whitespace. -/
def pyStrip (l : List Char) : List Char :=
  ((l.dropWhile isPySpace).reverse.dropWhile isPySpace).reverse

/-- `eq_str.replace('count:', 'Count:')`: every occurrence of `count:` gets
its leading character capitalized.  Because no occurrence of `count:` can
begin strictly inside a replaced span (none of `o`, `u`, `n`, `t`, `:` equals
`c`), advancing one character after a replacement finds exactly the matches
that Python's non-overlapping left-to-right replacement finds. -/
def fixCountKey : List Char → List Char
  | [] => []
  | c :: rest =>
    if c == 'c' && "ount:".data.isPrefixOf rest then 'C' :: fixCountKey rest
    else c :: fixCountKey rest

/-- Backtracking search for the greedy-then-shrinking group of
`re.sub(r'Count:(\d+)(?!b)', ...)`: the largest `k` at most the number of
leading digits, with at least one digit, such that the character after the
first `k` digits is not `b`. -/
def searchK (t : List Char) : Nat → Option Nat
  | 0 => none
  | k + 1 => if (t.drop (k + 1)).head? = some 'b' then searchK t k else some (k + 1)

/-- The digits consumed by a successful `(\d+)(?!b)` match starting at `t`,
together with the remainder of the input, `none` when every split is
rejected by the lookahead (or there is no leading digit). -/
def grabCount (t : List Char) : Option (List Char × List Char) :=
  match searchK t (t.takeWhile Char.isDigit).length with
  | none => none
  | some k => some (t.take k, t.drop k)

/-- Scan of `re.sub(r'Count:(\d+)(?!b)', r'Count:\1b', eq_str)`, with explicit
fuel (the input length bounds the number of scan positions).  A match attempt
happens at every position whose character is `C` followed by `ount:`; on
success the suffix `b` is appended to the matched digits and scanning resumes
after the match (no later match can begin inside the replaced span, as only
`C` can start one). -/
def addCountSuffixAux : Nat → List Char → List Char
  | 0, l => l
  | _ + 1, [] => []
  | fuel + 1, c :: rest =>
    if c == 'C' && "ount:".data.isPrefixOf rest then
      match grabCount (rest.drop 5) with
      | some (ds, rem) =>
        'C' :: 'o' :: 'u' :: 'n' :: 't' :: ':' :: (ds ++ 'b' :: addCountSuffixAux fuel rem)
      | none => c :: addCountSuffixAux fuel rest
    else c :: addCountSuffixAux fuel rest

/-- The `Count:` suffix rewrite of `parse_equipment`, run with sufficient
fuel. -/
def addCountSuffix (l : List Char) : List Char :=
  addCountSuffixAux l.length l

/-- Removal of a wrapping `equipment:\x7b ... \x7d` envelope:
`eq_str[11:-1]` when the string starts with `equipment:` plus an opening
brace and ends with a closing brace. -/
def stripEnvelope (l : List Char) : List Char :=
  if "equipment:\x7b".data.isPrefixOf l && l.getLast? == some '\x7d' then
    (l.drop 11).dropLast
  else l

/-- The whole preprocessing pipeline of `parse_equipment`, in source order:
collapse doubled quotes, strip whitespace, capitalize `count:`, append the
`b` suffix after `Count:` integers, strip the envelope. -/
def normalizeEquip (l : List Char) : List Char :=
  stripEnvelope (addCountSuffix (fixCountKey (pyStrip (collapseQuotes l))))

/-- `eq_str.find(pat)` as an option: the least index at which `pat` is a
prefix of the remaining characters. -/
def findSubstrIdx (pat : List Char) : List Char → Option Nat
  | [] => none
  | c :: rest =>
    if pat.isPrefixOf (c :: rest) then some 0
    else (findSubstrIdx pat rest).map (· + 1)

/-- The brace-matching loop of `parse_equipment`: characters after the
opening brace are scanned with a running depth (the argument, starting
at 1); the result is the offset of the first closing brace that returns
the depth to zero, `none` when the scan exhausts the string. -/
def findClose : List Char → Nat → Option Nat
  | [], _ => none
  | c :: rest, depth =>
    if c = '\x7b' then (findClose rest (depth + 1)).map (· + 1)
    else if c = '\x7d' then
      if depth = 1 then some 0 else (findClose rest (depth - 1)).map (· + 1)
    else (findClose rest depth).map (· + 1)

/-- Number of characters examined by the brace-matching loop. -/
def findCloseSteps : List Char → Nat → Nat
  | [], _ => 0
  | c :: rest, depth =>
    if c = '\x7b' then 1 + findCloseSteps rest (depth + 1)
    else if c = '\x7d' then
      if depth = 1 then 1 else 1 + findCloseSteps rest (depth - 1)
    else 1 + findCloseSteps rest depth

/-- Extraction of a slot's fragment given the position `p` of the slot
marker: `brace_start = p + len(slot) + 1` is the opening brace, the matching
close is sought from `brace_start + 1`, and on success the slice
`eq_str[brace_start:end_pos]` — opening and closing braces included — is
returned. -/
def extractAt (eq slot : List Char) (p : Nat) : Option (List Char) :=
  match findClose (eq.drop (p + slot.length + 2)) 1 with
  | none => none
  | some off => some ((eq.drop (p + slot.length + 1)).take (off + 2))

/-- Per-slot extraction of `parse_equipment`: find the marker
`slot:` followed by an opening brace, then extract the balanced fragment;
`none` when the marker is absent or the braces never rebalance. -/
def slotEntry (eq slot : List Char) : Option (List Char) :=
  match findSubstrIdx (slot ++ [':', '\x7b']) eq with
  | none => none
  | some p => extractAt eq slot p

/-- The string stored for a slot: the extracted fragment, or the placeholder
`\x7b\x7d` the output arrays are initialized with. -/
def slotString (eq slot : List Char) : String :=
  String.mk ((slotEntry eq slot).getD ['\x7b', '\x7d'])

/-- `parse_equipment(equipment_raw)` from generate_mobs.py.  Empty input
returns the placeholder arrays.  Otherwise each of the six slots is looked
up independently in the normalized string and written to its fixed position:
armor `[feet, legs, chest, head]`, hands `[mainhand, offhand]`. -/
def parse_equipment (raw : String) : List String × List String :=
  if raw.data = [] then
    (["\x7b\x7d", "\x7b\x7d", "\x7b\x7d", "\x7b\x7d"], ["\x7b\x7d", "\x7b\x7d"])
  else
    let eq := normalizeEquip raw.data
    ([slotString eq "feet".data, slotString eq "legs".data,
      slotString eq "chest".data, slotString eq "head".data],
     [slotString eq "mainhand".data, slotString eq "offhand".data])

/-- Signed brace balance of a character list: opening braces count `+1`,
closing braces `-1`. -/
def listBal : List Char → Int
  | [] => 0
  | c :: rest =>
    (if c = '\x7b' then 1 else if c = '\x7d' then -1 else 0) + listBal rest

/-- A character list is brace-balanced when no prefix closes more braces
than it opens and the whole list closes every brace it opens. -/
def BalancedBraces (l : List Char) : Prop :=
  (∀ j : Nat, 0 ≤ listBal (l.take j)) ∧ listBal l = 0

/-- Whether the lowercase key `count:` occurs anywhere in the list. -/
def hasCount : List Char → Bool
  | [] => false
  | c :: rest => (c == 'c' && "ount:".data.isPrefixOf rest) || hasCount rest

/-- A list with no ampersand at all has no live escape code. -/
theorem hasLiveAmp_eq_false_of_no_amp : ∀ (l : List Char), '&' ∉ l → hasLiveAmp l = false
  | [], _ => rfl
  | c :: rest, h => by
    have hc : (c == '&') = false := by
      simp only [beq_eq_false_iff_ne, ne_eq]
      intro hc
      exact h (hc ▸ List.mem_cons_self c rest)
    have hr := hasLiveAmp_eq_false_of_no_amp rest (fun hm => h (List.mem_cons_of_mem c hm))
    simp [hasLiveAmp, hc, hr]

/-- On input with no live escape code, the scan loop appends every character
to the buffer and finally flushes it. -/
theorem scan_stable (dc : String) (di : Bool) :
    ∀ (l : List Char) (st : Style) (buf : List Char),
      hasLiveAmp l = false → scan dc di l st buf = flushPre (buf ++ l) st
  | [], st, buf, _ => by simp [scan]
  | [c], st, buf, _ => by simp [scan]
  | c :: d :: rest2, st, buf, h => by
    have hdef : hasLiveAmp (c :: d :: rest2)
        = ((c == '&' && headIsCode (d :: rest2)) || hasLiveAmp (d :: rest2)) := rfl
    rw [hdef] at h
    have h1 : (c == '&' && headIsCode (d :: rest2)) = false := by
      cases hx : (c == '&' && headIsCode (d :: rest2))
      · rfl
      · rw [hx] at h
        simp at h
    have h2 : hasLiveAmp (d :: rest2) = false := by
      cases hx : hasLiveAmp (d :: rest2)
      · rfl
      · rw [hx] at h
        simp at h
    by_cases hc : c = '&'
    · subst hc
      have hcode : isCodeChar d = false := by simpa [headIsCode] using h1
      cases hcol : colorOf d.toLower with
      | some col =>
        exfalso
        simp [isCodeChar, hcol] at hcode
      | none =>
        have hfmt : isFmtChar d.toLower = false := by
          simpa [isCodeChar, hcol] using hcode
        simp only [scan, if_pos rfl, hcol, hfmt, Bool.false_eq_true, if_false]
        rw [scan_stable dc di (d :: rest2) st (buf ++ ['&']) h2]
        simp
    · simp only [scan, if_neg hc]
      rw [scan_stable dc di (d :: rest2) st (buf ++ [c]) h2]
      simp

/-- A string whose characters contain no live escape code parses to
components whose concatenated text is the very same string. -/
theorem parse_stable (l : List Char) (dc : String) (di : Bool)
    (h : hasLiveAmp l = false) :
    concatData (parse_color_codes (String.mk l) dc di) = l := by
  cases l with
  | nil => rfl
  | cons c rest =>
    have hd : (String.mk (c :: rest)).data = c :: rest := rfl
    simp only [parse_color_codes, hd]
    rw [if_neg (by simp)]
    rw [scan_stable dc di (c :: rest) (initStyle dc di) [] h]
    simp [flushPre, concatData, mkSeg]

/-- C7: for every input string containing no `&` character (including the
empty string), `parse_color_codes` returns exactly one segment whose text
equals the input and whose style equals the caller-supplied defaults:
color `default_color`, italic `default_italic`, every other flag false or
absent. -/
theorem C7_no_amp_single_segment (t dc : String) (di : Bool) (h : '&' ∉ t.data) :
    (parse_color_codes t dc di).length = 1 ∧
    ∀ s ∈ parse_color_codes t dc di,
      s.text = t ∧ s.color = dc ∧ s.italic = di ∧
      (s.bold = none ∨ s.bold = some false) ∧
      (s.underlined = none ∨ s.underlined = some false) ∧
      (s.strikethrough = none ∨ s.strikethrough = some false) ∧
      (s.obfuscated = none ∨ s.obfuscated = some false) := by
  obtain ⟨l⟩ := t
  cases l with
  | nil =>
    have hres : parse_color_codes (String.mk []) dc di = [defaultSeg dc di] := rfl
    rw [hres]
    refine ⟨rfl, ?_⟩
    intro s hs
    rw [List.mem_singleton] at hs
    subst hs
    exact ⟨rfl, rfl, rfl, Or.inl rfl, Or.inl rfl, Or.inl rfl, Or.inl rfl⟩
  | cons c rest =>
    have hla : hasLiveAmp (c :: rest) = false := hasLiveAmp_eq_false_of_no_amp _ h
    have hd : (String.mk (c :: rest)).data = c :: rest := rfl
    have hres : parse_color_codes (String.mk (c :: rest)) dc di
        = [mkSeg (c :: rest) (initStyle dc di)] := by
      simp only [parse_color_codes, hd]
      rw [if_neg (by simp)]
      rw [scan_stable dc di (c :: rest) (initStyle dc di) [] hla]
      simp [flushPre]
    rw [hres]
    refine ⟨rfl, ?_⟩
    intro s hs
    rw [List.mem_singleton] at hs
    subst hs
    exact ⟨rfl, rfl, rfl, Or.inr rfl, Or.inr rfl, Or.inr rfl, Or.inr rfl⟩

/-- C7 witness: the theorem applied to the concrete input `hello` with
defaults `white`, `false`. -/
theorem C7_no_amp_single_segment_witness :
    '&' ∉ "hello".data ∧
    ((parse_color_codes "hello" "white" false).length = 1 ∧
     ∀ s ∈ parse_color_codes "hello" "white" false,
       s.text = "hello" ∧ s.color = "white" ∧ s.italic = false ∧
       (s.bold = none ∨ s.bold = some false) ∧
       (s.underlined = none ∨ s.underlined = some false) ∧
       (s.strikethrough = none ∨ s.strikethrough = some false) ∧
       (s.obfuscated = none ∨ s.obfuscated = some false)) :=
  ⟨by decide, C7_no_amp_single_segment "hello" "white" false (by decide)⟩

/-- C3 (amended): re-running `parse_color_codes` on the concatenation of the
segment texts of a first run reproduces that concatenation whenever the
concatenation contains no live escape code, i.e. no `&` immediately followed
by a recognized code character.  (The unamended claim, quantified over every
input, is refuted by `C3_counterexample`: adjacent segments can juxtapose a
literal `&` with a code character.) -/
theorem C3_idempotent_when_no_live_code (t dc : String) (di : Bool)
    (h : hasLiveAmp (concatData (parse_color_codes t dc di)) = false) :
    concatData (parse_color_codes
        (String.mk (concatData (parse_color_codes t dc di))) dc di)
      = concatData (parse_color_codes t dc di) :=
  parse_stable (concatData (parse_color_codes t dc di)) dc di h

/-- C3 witness: the theorem applied to the concrete input
`&cRed &lBold&r End`, whose first-run concatenation `Red Bold End` has no
live code. -/
theorem C3_idempotent_when_no_live_code_witness :
    hasLiveAmp (concatData (parse_color_codes "&cRed &lBold&r End" "white" false)) = false ∧
    concatData (parse_color_codes
        (String.mk (concatData (parse_color_codes "&cRed &lBold&r End" "white" false)))
        "white" false)
      = concatData (parse_color_codes "&cRed &lBold&r End" "white" false) :=
  ⟨by decide, C3_idempotent_when_no_live_code "&cRed &lBold&r End" "white" false (by decide)⟩

/-- C3 counterexample: for the input `&&cc` the first run yields segments
with texts `&` and `c`, whose concatenation `&c` is itself a color code;
the second run consumes it and returns the empty default segment, so the
round trip is not stable. -/
theorem C3_counterexample :
    concatData (parse_color_codes
        (String.mk (concatData (parse_color_codes "&&cc" "white" false)))
        "white" false)
      ≠ concatData (parse_color_codes "&&cc" "white" false) := by decide

/-- C4: on `&cRed &lBold&r End` with defaults `white`/`false` the parser
returns exactly the three segments `Red ` (red, no flags), `Bold` (red,
bold), ` End` (white, no flags, italic false): a color code resets every
format flag, a format code sets its single flag, and `&r` restores the
default color and italic. -/
theorem C4_example_segments :
    parse_color_codes "&cRed &lBold&r End" "white" false =
      [⟨"Red ", "red", some false, false, some false, some false, some false⟩,
       ⟨"Bold", "red", some true, false, some false, some false, some false⟩,
       ⟨" End", "white", some false, false, some false, some false, some false⟩] := by decide

/-- C1 counterexample: for
`mainhand:\x7bid:"minecraft:iron_sword",count:1\x7d` the extracted mainhand
string keeps both braces: it is `\x7bid:"minecraft:iron_sword",Count:1b\x7d`,
not the brace-free `id:"minecraft:iron_sword",Count:1b` the claim asserts. -/
theorem C1_counterexample :
    (parse_equipment "mainhand:\x7bid:\"minecraft:iron_sword\",count:1\x7d").2
      = ["\x7bid:\"minecraft:iron_sword\",Count:1b\x7d", "\x7b\x7d"] ∧
    "\x7bid:\"minecraft:iron_sword\",Count:1b\x7d"
      ≠ "id:\"minecraft:iron_sword\",Count:1b" := by
  constructor
  · decide
  · decide

/-- C2: evaluation at the failing input.  The regex
`Count:(\d+)(?!b)` backtracks on `Count:64b`: the greedy group `64` is
rejected by the lookahead, the group shrinks to `6` whose follower `4` is
not `b`, so the code rewrites `Count:64b` to `Count:6b4b` instead of leaving
it unchanged as its own comment states; the same corruption reaches the
extracted mainhand fragment. -/
theorem C2_failing_input_eval :
    addCountSuffix "Count:64b".data = "Count:6b4b".data ∧
    (parse_equipment "mainhand:\x7bid:\"x\",count:64b\x7d").2
      = ["\x7bid:\"x\",Count:6b4b\x7d", "\x7b\x7d"] := by
  constructor
  · decide
  · decide

/-- Soundness of the marker search: a returned index is a match position. -/
theorem findSubstrIdx_sound (pat : List Char) :
    ∀ (l : List Char) (p : Nat), findSubstrIdx pat l = some p →
      pat.isPrefixOf (l.drop p) = true
  | [], p, h => by simp [findSubstrIdx] at h
  | c :: rest, p, h => by
    by_cases hp : pat.isPrefixOf (c :: rest) = true
    · rw [show findSubstrIdx pat (c :: rest) = some 0 from by simp [findSubstrIdx, hp]] at h
      obtain rfl : (0 : Nat) = p := by simpa using h
      simpa using hp
    · rw [show findSubstrIdx pat (c :: rest) = (findSubstrIdx pat rest).map (· + 1) from by
        simp [findSubstrIdx, hp]] at h
      rw [Option.map_eq_some'] at h
      obtain ⟨q, hq, hqp⟩ := h
      subst hqp
      rw [List.drop_succ_cons]
      exact findSubstrIdx_sound pat rest q hq

/-- Completeness of the marker search: the least match position is found.
This is the behaviour of `str.find`, which returns the leftmost match. -/
theorem findSubstrIdx_eq_of_leftmost (pat : List Char) (hne : pat ≠ []) :
    ∀ (l : List Char) (p : Nat),
      pat.isPrefixOf (l.drop p) = true →
      (∀ q, q < p → pat.isPrefixOf (l.drop q) = false) →
      findSubstrIdx pat l = some p
  | [], p, h1, _ => by
    exfalso
    rw [List.drop_nil] at h1
    cases pat with
    | nil => exact hne rfl
    | cons a as => simp [List.isPrefixOf] at h1
  | c :: rest, p, h1, h2 => by
    cases p with
    | zero =>
      rw [List.drop_zero] at h1
      simp [findSubstrIdx, h1]
    | succ p' =>
      have h0 : pat.isPrefixOf (c :: rest) = false := by
        have := h2 0 (Nat.succ_pos p')
        simpa using this
      have hr : findSubstrIdx pat rest = some p' :=
        findSubstrIdx_eq_of_leftmost pat hne rest p' (by simpa using h1)
          (fun q hq => by
            have := h2 (q + 1) (Nat.succ_lt_succ hq)
            simpa using this)
      simp [findSubstrIdx, h0, hr]

/-- A slot marker match at `p` places the opening brace at
`p + slot.length + 1`; the characters after it are the rest of the string. -/
theorem marker_decomp (eq slot : List Char) (p : Nat)
    (h : (slot ++ [':', '\x7b']).isPrefixOf (eq.drop p) = true) :
    eq.drop (p + slot.length + 1) = '\x7b' :: eq.drop (p + slot.length + 2) := by
  rw [List.isPrefixOf_iff_prefix] at h
  obtain ⟨u, hu⟩ := h
  have e1 : eq.drop (p + slot.length + 1) = '\x7b' :: u := by
    have : eq.drop (p + slot.length + 1) = (eq.drop p).drop (slot.length + 1) := by
      rw [List.drop_drop, Nat.add_assoc]
    rw [this, ← hu]
    have hsplit : (slot ++ [':', '\x7b']) ++ u = (slot ++ [':']) ++ ('\x7b' :: u) := by
      simp
    rw [hsplit]
    have hlen : (slot ++ [':']).length = slot.length + 1 := by simp
    rw [← hlen, List.drop_left]
  have e2 : eq.drop (p + slot.length + 2) = u := by
    have : eq.drop (p + slot.length + 2) = (eq.drop p).drop (slot.length + 2) := by
      rw [List.drop_drop, Nat.add_assoc]
    rw [this, ← hu]
    have hlen : (slot ++ [':', '\x7b']).length = slot.length + 2 := by simp
    rw [← hlen, List.drop_left]
  rw [e1, e2]

/-- Brace balance of a concatenation. -/
theorem listBal_append : ∀ (a b : List Char), listBal (a ++ b) = listBal a + listBal b
  | [], b => by simp [listBal]
  | c :: a, b => by
    have ih := listBal_append a b
    have h1 : listBal (c :: (a ++ b))
        = (if c = '\x7b' then 1 else if c = '\x7d' then (-1 : Int) else 0) + listBal (a ++ b) := rfl
    have h2 : listBal (c :: a)
        = (if c = '\x7b' then 1 else if c = '\x7d' then (-1 : Int) else 0) + listBal a := rfl
    rw [List.cons_append, h1, h2, ih]
    ring

/-- When the brace-matching loop finds a close at offset `off`, the running
depth stays at least 1 strictly before `off` and returns to 0 right after
it. -/
theorem findClose_some_spec :
    ∀ (t : List Char) (d off : Nat), 1 ≤ d → findClose t d = some off →
      off < t.length ∧
      (∀ j, j ≤ off → 1 ≤ (d : Int) + listBal (t.take j)) ∧
      (d : Int) + listBal (t.take (off + 1)) = 0
  | [], d, off, _, h => by simp [findClose] at h
  | c :: rest, d, off, hd, h => by
    have hd1 : (1 : Int) ≤ (d : Int) := by exact_mod_cast hd
    by_cases h1 : c = '\x7b'
    · rw [show findClose (c :: rest) d = (findClose rest (d + 1)).map (· + 1) from by
        simp [findClose, h1]] at h
      rw [Option.map_eq_some'] at h
      obtain ⟨off0, hoff0, hpo⟩ := h
      subst hpo
      obtain ⟨ha, hb, hc2⟩ := findClose_some_spec rest (d + 1) off0 (by omega) hoff0
      refine ⟨by simp only [List.length_cons]; omega, ?_, ?_⟩
      · intro j hj
        cases j with
        | zero => simpa [listBal] using hd1
        | succ j0 =>
          have hIH := hb j0 (by omega)
          rw [List.take_succ_cons]
          rw [show listBal (c :: rest.take j0)
              = 1 + listBal (rest.take j0) from by simp [listBal, h1]]
          push_cast at hIH ⊢
          omega
      · have := hc2
        rw [List.take_succ_cons]
        rw [show listBal (c :: rest.take (off0 + 1))
            = 1 + listBal (rest.take (off0 + 1)) from by simp [listBal, h1]]
        push_cast at this ⊢
        omega
    · by_cases h2 : c = '\x7d'
      · by_cases h3 : d = 1
        · rw [show findClose (c :: rest) d = some 0 from by simp [findClose, h1, h2, h3]] at h
          obtain rfl : (0 : Nat) = off := by simpa using h
          refine ⟨by simp, ?_, ?_⟩
          · intro j hj
            obtain rfl : j = 0 := Nat.le_zero.mp hj
            simpa [listBal] using hd1
          · rw [show (c :: rest).take 1 = [c] from by simp]
            rw [show listBal [c] = -1 from by simp [listBal, h1, h2]]
            omega
        · rw [show findClose (c :: rest) d = (findClose rest (d - 1)).map (· + 1) from by
            simp [findClose, h1, h2, h3]] at h
          rw [Option.map_eq_some'] at h
          obtain ⟨off0, hoff0, hpo⟩ := h
          subst hpo
          obtain ⟨ha, hb, hc2⟩ := findClose_some_spec rest (d - 1) off0 (by omega) hoff0
          have hcast : ((d - 1 : Nat) : Int) = (d : Int) - 1 := by omega
          refine ⟨by simp only [List.length_cons]; omega, ?_, ?_⟩
          · intro j hj
            cases j with
            | zero => simpa [listBal] using hd1
            | succ j0 =>
              have hIH := hb j0 (by omega)
              rw [hcast] at hIH
              rw [List.take_succ_cons]
              rw [show listBal (c :: rest.take j0)
                  = -1 + listBal (rest.take j0) from by simp [listBal, h1, h2]]
              omega
          · have := hc2
            rw [hcast] at this
            rw [List.take_succ_cons]
            rw [show listBal (c :: rest.take (off0 + 1))
                = -1 + listBal (rest.take (off0 + 1)) from by simp [listBal, h1, h2]]
            omega
      · rw [show findClose (c :: rest) d = (findClose rest d).map (· + 1) from by
          simp [findClose, h1, h2]] at h
        rw [Option.map_eq_some'] at h
        obtain ⟨off0, hoff0, hpo⟩ := h
        subst hpo
        obtain ⟨ha, hb, hc2⟩ := findClose_some_spec rest d off0 hd hoff0
        refine ⟨by simp only [List.length_cons]; omega, ?_, ?_⟩
        · intro j hj
          cases j with
          | zero => simpa [listBal] using hd1
          | succ j0 =>
            have hIH := hb j0 (by omega)
            rw [List.take_succ_cons]
            rw [show listBal (c :: rest.take j0)
                = 0 + listBal (rest.take j0) from by simp [listBal, h1, h2]]
            omega
        · have := hc2
          rw [List.take_succ_cons]
          rw [show listBal (c :: rest.take (off0 + 1))
              = 0 + listBal (rest.take (off0 + 1)) from by simp [listBal, h1, h2]]
          omega

/-- When the brace-matching loop exhausts the string, the running depth
never returned to 0: every prefix keeps it at least 1. -/
theorem findClose_none_spec :
    ∀ (t : List Char) (d : Nat), 1 ≤ d → findClose t d = none →
      ∀ j, j ≤ t.length → 1 ≤ (d : Int) + listBal (t.take j)
  | [], d, hd, _, j, hj => by
    obtain rfl : j = 0 := Nat.le_zero.mp (by simpa using hj)
    have : (1 : Int) ≤ (d : Int) := by exact_mod_cast hd
    simpa [listBal] using this
  | c :: rest, d, hd, h, j, hj => by
    have hd1 : (1 : Int) ≤ (d : Int) := by exact_mod_cast hd
    by_cases h1 : c = '\x7b'
    · rw [show findClose (c :: rest) d = (findClose rest (d + 1)).map (· + 1) from by
        simp [findClose, h1]] at h
      rw [Option.map_eq_none'] at h
      cases j with
      | zero => simpa [listBal] using hd1
      | succ j0 =>
        have hIH := findClose_none_spec rest (d + 1) (by omega) h j0 (by simpa using hj)
        rw [List.take_succ_cons]
        rw [show listBal (c :: rest.take j0)
            = 1 + listBal (rest.take j0) from by simp [listBal, h1]]
        push_cast at hIH ⊢
        omega
    · by_cases h2 : c = '\x7d'
      · by_cases h3 : d = 1
        · rw [show findClose (c :: rest) d = some 0 from by simp [findClose, h1, h2, h3]] at h
          simp at h
        · rw [show findClose (c :: rest) d = (findClose rest (d - 1)).map (· + 1) from by
            simp [findClose, h1, h2, h3]] at h
          rw [Option.map_eq_none'] at h
          cases j with
          | zero => simpa [listBal] using hd1
          | succ j0 =>
            have hIH := findClose_none_spec rest (d - 1) (by omega) h j0 (by simpa using hj)
            have hcast : ((d - 1 : Nat) : Int) = (d : Int) - 1 := by omega
            rw [hcast] at hIH
            rw [List.take_succ_cons]
            rw [show listBal (c :: rest.take j0)
                = -1 + listBal (rest.take j0) from by simp [listBal, h1, h2]]
            omega
      · rw [show findClose (c :: rest) d = (findClose rest d).map (· + 1) from by
          simp [findClose, h1, h2]] at h
        rw [Option.map_eq_none'] at h
        cases j with
        | zero => simpa [listBal] using hd1
        | succ j0 =>
          have hIH := findClose_none_spec rest d hd h j0 (by simpa using hj)
          rw [List.take_succ_cons]
          rw [show listBal (c :: rest.take j0)
              = 0 + listBal (rest.take j0) from by simp [listBal, h1, h2]]
          omega

/-- The per-slot extraction is entirely determined by the leftmost marker
occurrence: when `p` is the first index at which `slot:` followed by an
opening brace matches, the result is the extraction at `p`. -/
theorem slotEntry_eq_extractAt (eq slot : List Char) (p : Nat)
    (h1 : (slot ++ [':', '\x7b']).isPrefixOf (eq.drop p) = true)
    (h2 : ∀ q, q < p → (slot ++ [':', '\x7b']).isPrefixOf (eq.drop q) = false) :
    slotEntry eq slot = extractAt eq slot p := by
  have hne : slot ++ [':', '\x7b'] ≠ [] := by simp
  simp only [slotEntry, findSubstrIdx_eq_of_leftmost (slot ++ [':', '\x7b']) hne eq p h1 h2]

/-- C9: when a recognized slot marker occurs more than once, only the first
(leftmost) occurrence matters: for `p` the leftmost match position of
`slot:` followed by an opening brace, the slot's extraction equals the
extraction performed at `p`, so later occurrences cannot affect the
result. -/
theorem C9_leftmost_occurrence (eq slot : List Char) (p : Nat)
    (h1 : (slot ++ [':', '\x7b']).isPrefixOf (eq.drop p) = true)
    (h2 : ∀ q, q < p → (slot ++ [':', '\x7b']).isPrefixOf (eq.drop q) = false) :
    slotEntry eq slot = extractAt eq slot p :=
  slotEntry_eq_extractAt eq slot p h1 h2

/-- C9 witness: in `xhead:\x7ba\x7dhead:\x7bb\x7d` the marker `head:` occurs
at positions 1 and 9; the extraction happens at the leftmost position 1 and
returns `\x7ba\x7d`, ignoring the second occurrence. -/
theorem C9_leftmost_occurrence_witness :
    ("head".data ++ [':', '\x7b']).isPrefixOf
        ("xhead:\x7ba\x7dhead:\x7bb\x7d".data.drop 1) = true ∧
    slotEntry "xhead:\x7ba\x7dhead:\x7bb\x7d".data "head".data
      = extractAt "xhead:\x7ba\x7dhead:\x7bb\x7d".data "head".data 1 ∧
    slotEntry "xhead:\x7ba\x7dhead:\x7bb\x7d".data "head".data = some "\x7ba\x7d".data :=
  ⟨by decide,
   C9_leftmost_occurrence "xhead:\x7ba\x7dhead:\x7bb\x7d".data "head".data 1
     (by decide) (by decide),
   by decide⟩

/-- C6: when the opening brace of a slot whose marker occurs (leftmost at
`p`) is never matched — the running depth stays at least 1 over the whole
remaining string — the slot degrades to the placeholder; the function is
total, so no error is raised. -/
theorem C6_unbalanced_slot_placeholder (eq slot : List Char) (p : Nat)
    (h1 : (slot ++ [':', '\x7b']).isPrefixOf (eq.drop p) = true)
    (h2 : ∀ q, q < p → (slot ++ [':', '\x7b']).isPrefixOf (eq.drop q) = false)
    (h3 : ∀ j, j ≤ (eq.drop (p + slot.length + 2)).length →
      1 ≤ (1 : Int) + listBal ((eq.drop (p + slot.length + 2)).take j)) :
    slotString eq slot = "\x7b\x7d" := by
  rw [slotString, slotEntry_eq_extractAt eq slot p h1 h2]
  cases hfc : findClose (eq.drop (p + slot.length + 2)) 1 with
  | none =>
    simp only [extractAt, hfc, Option.getD_none]
  | some off =>
    exfalso
    obtain ⟨ha, hb, hc2⟩ := findClose_some_spec _ 1 off le_rfl hfc
    have := h3 (off + 1) (by omega)
    omega

/-- C6 witness: `head:\x7bfoo` has an unmatched opening brace for the head
slot; the slot yields the placeholder and the whole call returns normally
with every slot at the placeholder. -/
theorem C6_unbalanced_slot_placeholder_witness :
    slotString "head:\x7bfoo".data "head".data = "\x7b\x7d" ∧
    parse_equipment "head:\x7bfoo"
      = (["\x7b\x7d", "\x7b\x7d", "\x7b\x7d", "\x7b\x7d"], ["\x7b\x7d", "\x7b\x7d"]) :=
  ⟨C6_unbalanced_slot_placeholder "head:\x7bfoo".data "head".data 0
     (by decide) (by decide) (by decide),
   by decide⟩

/-- C1 (amended): for a slot whose marker occurs (leftmost at `p`) with
balanced braces — the depth stays at least 1 strictly before offset `off`
and returns to 0 at `off` — the slot's output is the substring from the
opening brace through its matching closing brace inclusive: the fragment is
the opening brace, then the characters strictly between the braces, then
the closing brace.  (The spec's claim that the braces are excluded is
refuted at `C1_counterexample`; the fragment keeps both braces, matching
the placeholder format of absent slots.) -/
theorem C1_amended_extraction_inclusive (eq slot : List Char) (p off : Nat)
    (h1 : (slot ++ [':', '\x7b']).isPrefixOf (eq.drop p) = true)
    (h2 : ∀ q, q < p → (slot ++ [':', '\x7b']).isPrefixOf (eq.drop q) = false)
    (h3 : ∀ j, j ≤ off → 1 ≤ (1 : Int) + listBal ((eq.drop (p + slot.length + 2)).take j))
    (h4 : (1 : Int) + listBal ((eq.drop (p + slot.length + 2)).take (off + 1)) = 0)
    (h5 : off < (eq.drop (p + slot.length + 2)).length) :
    slotEntry eq slot
      = some ('\x7b' :: ((eq.drop (p + slot.length + 2)).take off ++ ['\x7d'])) := by
  set t := eq.drop (p + slot.length + 2) with ht
  have hfc : findClose t 1 = some off := by
    cases hf : findClose t 1 with
    | none =>
      exfalso
      have := findClose_none_spec t 1 le_rfl hf (off + 1) (by omega)
      omega
    | some off' =>
      obtain ⟨ha, hb, hc2⟩ := findClose_some_spec t 1 off' le_rfl hf
      have heq : off' = off := by
        rcases Nat.lt_trichotomy off' off with hlt | he | hgt
        · exfalso
          have := h3 (off' + 1) (by omega)
          omega
        · exact he
        · exfalso
          have := hb (off + 1) (by omega)
          omega
      rw [heq]
  obtain ⟨cc, hcc⟩ : ∃ cc, t[off]? = some cc := by
    rw [List.getElem?_eq_getElem h5]
    exact ⟨_, rfl⟩
  have htake1 : t.take (off + 1) = t.take off ++ [cc] := by
    rw [List.take_succ, hcc]
    rfl
  have hrange : listBal [cc] = 1 ∨ listBal [cc] = -1 ∨ listBal [cc] = 0 := by
    by_cases hb1 : cc = '\x7b'
    · exact Or.inl (by simp [listBal, hb1])
    · by_cases hb2 : cc = '\x7d'
      · exact Or.inr (Or.inl (by simp [listBal, hb1, hb2]))
      · exact Or.inr (Or.inr (by simp [listBal, hb1, hb2]))
  have hballast : listBal [cc] = -1 := by
    have h3o := h3 off le_rfl
    have happ : listBal (t.take (off + 1)) = listBal (t.take off) + listBal [cc] := by
      rw [htake1, listBal_append]
    rcases hrange with hr | hr | hr
    · omega
    · exact hr
    · omega
  have hclose : cc = '\x7d' := by
    by_cases hb1 : cc = '\x7b'
    · rw [show listBal [cc] = 1 from by simp [listBal, hb1]] at hballast
      norm_num at hballast
    · by_cases hb2 : cc = '\x7d'
      · exact hb2
      · rw [show listBal [cc] = 0 from by simp [listBal, hb1, hb2]] at hballast
        norm_num at hballast
  have hdec := marker_decomp eq slot p h1
  rw [slotEntry_eq_extractAt eq slot p h1 h2]
  simp only [extractAt, ← ht, hfc]
  rw [hdec, ← ht]
  rw [show ('\x7b' :: t).take (off + 2) = '\x7b' :: t.take (off + 1) from rfl]
  rw [htake1, hclose]

/-- C1 witness: the amended theorem applied to the normalized mainhand
example; the extracted fragment is the brace-inclusive
`\x7bid:"minecraft:iron_sword",Count:1b\x7d`. -/
theorem C1_amended_extraction_inclusive_witness :
    slotEntry "mainhand:\x7bid:\"minecraft:iron_sword\",Count:1b\x7d".data "mainhand".data
      = some ('\x7b' ::
          (("mainhand:\x7bid:\"minecraft:iron_sword\",Count:1b\x7d".data.drop
              (0 + "mainhand".data.length + 2)).take 34 ++ ['\x7d'])) ∧
    some ('\x7b' ::
        (("mainhand:\x7bid:\"minecraft:iron_sword\",Count:1b\x7d".data.drop
            (0 + "mainhand".data.length + 2)).take 34 ++ ['\x7d']))
      = some "\x7bid:\"minecraft:iron_sword\",Count:1b\x7d".data :=
  ⟨C1_amended_extraction_inclusive
     "mainhand:\x7bid:\"minecraft:iron_sword\",Count:1b\x7d".data "mainhand".data 0 34
     (by decide) (by decide) (by decide) (by decide) (by decide),
   by decide⟩

/-- The empty-object placeholder is brace-balanced. -/
theorem placeholder_balanced : BalancedBraces ("\x7b\x7d".data) := by
  constructor
  · intro j
    match j with
    | 0 => decide
    | 1 => decide
    | n + 2 =>
      have hl : ("\x7b\x7d".data).length = 2 := rfl
      rw [List.take_of_length_le (by rw [hl]; omega)]
      decide
  · decide

/-- Every stored slot string — extracted fragment or placeholder — is
brace-balanced. -/
theorem slotString_balanced (eq slot : List Char) :
    BalancedBraces (slotString eq slot).data := by
  rw [slotString]
  cases hse : slotEntry eq slot with
  | none =>
    simp only [Option.getD_none]
    exact placeholder_balanced
  | some item =>
    simp only [Option.getD_some]
    show BalancedBraces item
    have hstruct : ∃ p off, (slot ++ [':', '\x7b']).isPrefixOf (eq.drop p) = true ∧
        findClose (eq.drop (p + slot.length + 2)) 1 = some off ∧
        item = '\x7b' :: (eq.drop (p + slot.length + 2)).take (off + 1) := by
      cases hfs : findSubstrIdx (slot ++ [':', '\x7b']) eq with
      | none =>
        simp only [slotEntry, hfs] at hse
        simp at hse
      | some p =>
        have hpref := findSubstrIdx_sound _ eq p hfs
        simp only [slotEntry, hfs] at hse
        cases hfc : findClose (eq.drop (p + slot.length + 2)) 1 with
        | none =>
          simp only [extractAt, hfc] at hse
          simp at hse
        | some off =>
          simp only [extractAt, hfc, Option.some.injEq] at hse
          refine ⟨p, off, hpref, hfc, ?_⟩
          rw [← hse, marker_decomp eq slot p hpref]
          exact List.take_succ_cons
    obtain ⟨p, off, hpref, hfc, hitem⟩ := hstruct
    obtain ⟨ha, hb, hc2⟩ := findClose_some_spec _ 1 off le_rfl hfc
    subst hitem
    have hcons : ∀ m : List Char, listBal ('\x7b' :: m) = 1 + listBal m := by
      intro m
      simp [listBal]
    constructor
    · intro j
      match j with
      | 0 => simp [listBal]
      | jj + 1 =>
        rw [List.take_succ_cons, List.take_take, hcons]
        rcases le_or_lt jj off with hle | hgt
        · have hbb := hb jj hle
          rw [Nat.min_eq_left (by omega)]
          omega
        · rw [Nat.min_eq_right (by omega)]
          omega
    · rw [hcons]
      omega

/-- C5: for every input string, including the empty and arbitrarily
malformed ones, `parse_equipment` returns exactly 4 armor strings and
exactly 2 hand strings, each of which is brace-balanced — an extracted
fragment or the literal placeholder.  (The fixed orders
`[feet, legs, chest, head]` and `[mainhand, offhand]` are the construction
of the result tuple.) -/
theorem C5_fixed_shape_balanced (raw : String) :
    (parse_equipment raw).1.length = 4 ∧ (parse_equipment raw).2.length = 2 ∧
    (∀ s ∈ (parse_equipment raw).1, BalancedBraces s.data) ∧
    (∀ s ∈ (parse_equipment raw).2, BalancedBraces s.data) := by
  by_cases h : raw.data = []
  · rw [show parse_equipment raw
        = (["\x7b\x7d", "\x7b\x7d", "\x7b\x7d", "\x7b\x7d"], ["\x7b\x7d", "\x7b\x7d"]) from by
      simp only [parse_equipment, if_pos h]]
    refine ⟨rfl, rfl, ?_, ?_⟩
    · intro s hs
      simp only [List.mem_cons, List.not_mem_nil, or_false] at hs
      rcases hs with rfl | rfl | rfl | rfl
      all_goals exact placeholder_balanced
    · intro s hs
      simp only [List.mem_cons, List.not_mem_nil, or_false] at hs
      rcases hs with rfl | rfl
      all_goals exact placeholder_balanced
  · rw [show parse_equipment raw
        = ([slotString (normalizeEquip raw.data) "feet".data,
            slotString (normalizeEquip raw.data) "legs".data,
            slotString (normalizeEquip raw.data) "chest".data,
            slotString (normalizeEquip raw.data) "head".data],
           [slotString (normalizeEquip raw.data) "mainhand".data,
            slotString (normalizeEquip raw.data) "offhand".data]) from by
      simp only [parse_equipment, if_neg h]]
    refine ⟨rfl, rfl, ?_, ?_⟩
    · intro s hs
      simp only [List.mem_cons, List.not_mem_nil, or_false] at hs
      rcases hs with rfl | rfl | rfl | rfl
      all_goals exact slotString_balanced _ _
    · intro s hs
      simp only [List.mem_cons, List.not_mem_nil, or_false] at hs
      rcases hs with rfl | rfl
      all_goals exact slotString_balanced _ _

/-- C5 witness: the theorem applied to a mainhand string with nested braces
shows the extracted element `\x7ba\x7bb\x7dc\x7d` of the hand list is
balanced. -/
theorem C5_fixed_shape_balanced_witness :
    BalancedBraces ("\x7ba\x7bb\x7dc\x7d".data) :=
  (C5_fixed_shape_balanced "mainhand:\x7ba\x7bb\x7dc\x7d").2.2.2
    "\x7ba\x7bb\x7dc\x7d" (by decide)

/-- A pattern without a capital `C` that is a prefix of the rewritten string
was already a prefix of the original: the rewrite only turns characters
into `C`. -/
theorem isPrefixOf_fixCountKey (pat : List Char) (hC : 'C' ∉ pat) :
    ∀ (s : List Char), pat.isPrefixOf (fixCountKey s) = true → pat.isPrefixOf s = true
  | [], h => by simpa [fixCountKey] using h
  | c :: rest, h => by
    by_cases hm : (c == 'c' && "ount:".data.isPrefixOf rest) = true
    · rw [show fixCountKey (c :: rest) = 'C' :: fixCountKey rest from by
        simp [fixCountKey, hm]] at h
      cases pat with
      | nil => simp [List.isPrefixOf]
      | cons x xs =>
        exfalso
        simp only [List.isPrefixOf, Bool.and_eq_true, beq_iff_eq] at h
        exact hC (h.1 ▸ List.mem_cons_self x xs)
    · rw [show fixCountKey (c :: rest) = c :: fixCountKey rest from by
        simp only [fixCountKey]
        rw [if_neg (by simpa using hm)]] at h
      cases pat with
      | nil => simp [List.isPrefixOf]
      | cons x xs =>
        simp only [List.isPrefixOf, Bool.and_eq_true, beq_iff_eq] at h ⊢
        refine ⟨h.1, ?_⟩
        exact isPrefixOf_fixCountKey xs (fun hx => hC (List.mem_cons_of_mem x hx)) rest h.2

/-- After the `count:` to `Count:` rewrite, no occurrence of the lowercase
key `count:` remains anywhere in the string. -/
theorem hasCount_fixCountKey : ∀ (l : List Char), hasCount (fixCountKey l) = false
  | [] => rfl
  | c :: rest => by
    by_cases hm : (c == 'c' && "ount:".data.isPrefixOf rest) = true
    · rw [show fixCountKey (c :: rest) = 'C' :: fixCountKey rest from by
        simp [fixCountKey, hm]]
      rw [show hasCount ('C' :: fixCountKey rest)
          = (('C' == 'c' && "ount:".data.isPrefixOf (fixCountKey rest))
             || hasCount (fixCountKey rest)) from rfl]
      rw [hasCount_fixCountKey rest]
      simp
    · rw [show fixCountKey (c :: rest) = c :: fixCountKey rest from by
        simp only [fixCountKey]
        rw [if_neg (by simpa using hm)]]
      rw [show hasCount (c :: fixCountKey rest)
          = ((c == 'c' && "ount:".data.isPrefixOf (fixCountKey rest))
             || hasCount (fixCountKey rest)) from rfl]
      rw [hasCount_fixCountKey rest]
      simp only [Bool.or_false]
      cases hx : (c == 'c' && "ount:".data.isPrefixOf (fixCountKey rest))
      · rfl
      · exfalso
        simp only [Bool.and_eq_true] at hx
        obtain ⟨hc1, hp⟩ := hx
        have := isPrefixOf_fixCountKey "ount:".data (by decide) rest hp
        exact hm (by simp [hc1, this])

/-- C10: the `count:` to `Count:` normalization rewrites every occurrence of
the substring anywhere in the input — no `count:` survives the rewrite —
including as the tail of a longer key (`discount:3` becomes `disCount:3b`
after the suffix pass) and inside quoted text. -/
theorem C10_count_rewrite_everywhere :
    (∀ l : List Char, hasCount (fixCountKey l) = false) ∧
    normalizeEquip "discount:3".data = "disCount:3b".data ∧
    normalizeEquip "mainhand:\x7bid:\"count:x\"\x7d".data
      = "mainhand:\x7bid:\"Count:x\"\x7d".data :=
  ⟨hasCount_fixCountKey, by decide, by decide⟩

/-- Iteration count of the color-code scan loop: at most one step per input
character, and each step consumes at most two characters. -/
theorem scanSteps_bounds : ∀ (l : List Char),
    scanSteps l ≤ l.length ∧ l.length ≤ 2 * scanSteps l
  | [] => by simp [scanSteps]
  | [c] => by simp [scanSteps]
  | c :: d :: rest2 => by
    by_cases h1 : c = '&'
    · by_cases h2 : isCodeChar d = true
      · rw [show scanSteps (c :: d :: rest2) = 1 + scanSteps rest2 from by
          simp [scanSteps, h1, h2]]
        have := scanSteps_bounds rest2
        simp only [List.length_cons]
        omega
      · rw [show scanSteps (c :: d :: rest2) = 1 + scanSteps (d :: rest2) from by
          simp only [scanSteps]
          rw [if_pos h1, if_neg h2]]
        have := scanSteps_bounds (d :: rest2)
        simp only [List.length_cons] at this ⊢
        omega
    · rw [show scanSteps (c :: d :: rest2) = 1 + scanSteps (d :: rest2) from by
        simp [scanSteps, h1]]
      have := scanSteps_bounds (d :: rest2)
      simp only [List.length_cons] at this ⊢
      omega

/-- Iteration count of the brace-matching loop: at most one step per
remaining character. -/
theorem findCloseSteps_le : ∀ (t : List Char) (d : Nat), findCloseSteps t d ≤ t.length
  | [], _ => by simp [findCloseSteps]
  | c :: rest, d => by
    by_cases h1 : c = '\x7b'
    · rw [show findCloseSteps (c :: rest) d = 1 + findCloseSteps rest (d + 1) from by
        simp [findCloseSteps, h1]]
      have := findCloseSteps_le rest (d + 1)
      simp only [List.length_cons]
      omega
    · by_cases h2 : c = '\x7d'
      · by_cases h3 : d = 1
        · rw [show findCloseSteps (c :: rest) d = 1 from by simp [findCloseSteps, h1, h2, h3]]
          simp only [List.length_cons]
          omega
        · rw [show findCloseSteps (c :: rest) d = 1 + findCloseSteps rest (d - 1) from by
            simp [findCloseSteps, h1, h2, h3]]
          have := findCloseSteps_le rest (d - 1)
          simp only [List.length_cons]
          omega
      · rw [show findCloseSteps (c :: rest) d = 1 + findCloseSteps rest d from by
          simp [findCloseSteps, h1, h2]]
        have := findCloseSteps_le rest d
        simp only [List.length_cons]
        omega

/-- C8: both scans run to completion in a number of loop iterations bounded
by the input length: the color-code scan advances by one or two positions
per iteration (so its iteration count is between half the length and the
length), and the brace scan advances by exactly one.  Both embeddings are
total functions, so there is no error outcome. -/
theorem C8_loops_bounded (l t : List Char) (d : Nat) :
    scanSteps l ≤ l.length ∧ l.length ≤ 2 * scanSteps l ∧
    findCloseSteps t d ≤ t.length :=
  ⟨(scanSteps_bounds l).1, (scanSteps_bounds l).2, findCloseSteps_le t d⟩
